import Mathlib

/-!
Shallow embedding of `src/miller_rabin.c`: overflow-safe modular arithmetic on
64-bit unsigned integers (`mod_add`, `mod_sub`, `mod_mul`, `mod_pow`) and the
deterministic Miller-Rabin primality test `miller_rabin` built on them.

Machine integers are modelled as `Nat` together with explicit reduction
`% W` (`W = 2 ^ 64`) exactly where the C program's `uint64_t` arithmetic can
wrap.  Loops on a 64-bit counter `b` that is halved each iteration run at most
64 times, so they are written with 64 iterations of structural fuel; the
correctness lemmas below show the fuelled loop computes the loop's limit for
every `b < 2 ^ 64`, i.e. on the whole `uint64_t` domain.
-/

/-- `W` is the number of values of `uint64_t`; C arithmetic wraps modulo `W`. -/
def W : Nat := 2 ^ 64

/-- `mod_add` from `src/miller_rabin.c` lines 15-25: computes `a+b mod m`
assuming `a, b < m`.  The C expressions `m-b`, `a-(m-b)` and `a+b` are
`uint64_t` operations, hence the explicit wrap-arounds `(… + W - …) % W` and
`(a + b) % W`. -/
def mod_add (a b m : Nat) : Nat :=
  (if (m + W - b) % W ≤ a then (a + W - (m + W - b) % W) % W else (a + b) % W) % m

/-- `mod_sub` from `src/miller_rabin.c` lines 31-37: computes `a-b mod m`,
adding `m` first when `a < b`.  In C the branch `a < b` evaluates
`(a + m - b) % m` left to right in `uint64_t`, hence the two wrap-arounds. -/
def mod_sub (a b m : Nat) : Nat :=
  if a < b then ((a + m) % W + W - b) % W % m
  else (a - b) % m

/-- The `while (b > 0)` loop of `mod_mul` (`src/miller_rabin.c` lines 51-63),
with state `r`, `a`, `b`.  `b & 1` is the low bit of `b` (= `b % 2`) and
`b >> 1` is `b / 2`.  `b` is halved each iteration, so for `b < 2 ^ 64` the
loop runs at most 64 times; the first argument is that structural fuel. -/
def mod_mul_go : Nat → Nat → Nat → Nat → Nat → Nat
  | 0, r, _, _, _ => r
  | fuel + 1, r, a, b, m =>
      if b = 0 then r
      else mod_mul_go fuel (if b % 2 = 1 then mod_add r a m else r) (mod_add a a m) (b / 2) m

/-- `mod_mul` from `src/miller_rabin.c` lines 51-63: `r = 0; a = a % m;`
then the double-addition loop. -/
def mod_mul (a b m : Nat) : Nat :=
  mod_mul_go 64 0 (a % m) b m

/-- The `while (b > 0)` loop of `mod_pow` (`src/miller_rabin.c` lines 77-89),
square-and-multiply, same fuelling as `mod_mul_go`. -/
def mod_pow_go : Nat → Nat → Nat → Nat → Nat → Nat
  | 0, r, _, _, _ => r
  | fuel + 1, r, a, b, m =>
      if b = 0 then r
      else mod_pow_go fuel (if b % 2 = 1 then mod_mul r a m else r) (mod_mul a a m) (b / 2) m

/-- `mod_pow` from `src/miller_rabin.c` lines 77-89: `r = 1; a = a % m;`
then the square-and-multiply loop. -/
def mod_pow (a b m : Nat) : Nat :=
  mod_pow_go 64 1 (a % m) b m

/-- The decomposition loop of `miller_rabin` (`src/miller_rabin.c` lines
116-120): `while (d % 2 == 0) { d /= 2; r++; }`, returning the final `(d, r)`.
`miller_rabin` runs it on `d = n - 1` with `n` odd and `3 < n < 2 ^ 64`, so
`d` is even, nonzero, and reaches an odd value in fewer than 64 halvings;
64 iterations of structural fuel therefore reproduce the C loop exactly on
every reachable input.  (On `d = 0`, which the program never passes in, the C
loop would not terminate.) -/
def split2_go : Nat → Nat → Nat → Nat × Nat
  | 0, d, r => (d, r)
  | fuel + 1, d, r => if d % 2 = 0 then split2_go fuel (d / 2) (r + 1) else (d, r)

/-- The inner squaring loop of `miller_rabin` (`src/miller_rabin.c` lines
131-138): starting from `composite = 1`, square `x` up to `count = r - 1`
times; if some square equals `n - 1`, clear the flag and break.  Returns the
final value of the `composite` flag. -/
def squaringLoop : Nat → Nat → Nat → Bool
  | 0, _, _ => true
  | count + 1, x, n =>
      if mod_mul x x n = n - 1 then false
      else squaringLoop count (mod_mul x x n) n

/-- The body of the base loop of `miller_rabin` for one base `aI`
(`src/miller_rabin.c` lines 127-139): `true` exactly when base `aI` witnesses
compositeness, i.e. when `x = aI^d mod n` is neither `1` nor `n - 1` and the
squaring loop leaves the `composite` flag set. -/
def witnessed (aI n d r : Nat) : Bool :=
  if mod_pow aI d n = 1 ∨ mod_pow aI d n = n - 1 then false
  else squaringLoop (r - 1) (mod_pow aI d n) n

/-- The fixed deterministic base set, `src/miller_rabin.c` line 101. -/
def bases : List Nat := [2, 3, 5, 7, 11, 13, 17, 19, 23, 29, 31, 37]

/-- The base loop of `miller_rabin` (`src/miller_rabin.c` lines 123-141):
`break` on the first base with `aI > n - 2` (return 1 at the end), return 0
on the first base that witnesses compositeness, else continue. -/
def baseLoop : List Nat → Nat → Nat → Nat → Nat
  | [], _, _, _ => 1
  | aI :: rest, n, d, r =>
      if n - 2 < aI then 1
      else if witnessed aI n d r then 0
      else baseLoop rest n d r

/-- `miller_rabin` from `src/miller_rabin.c` lines 108-142: guards for
`n < 2`, `n = 2`, `n = 3` and even `n`, then the decomposition
`n - 1 = d * 2 ^ r` followed by the base loop. -/
def miller_rabin (n : Nat) : Nat :=
  if n < 2 then 0
  else if n = 2 ∨ n = 3 then 1
  else if n % 2 = 0 then 0
  else baseLoop bases n (split2_go 64 (n - 1) 0).1 (split2_go 64 (n - 1) 0).2

/-! ### Characterisation of `mod_add` and `mod_sub` -/

/-- Under the documented precondition `a, b < m` (and `m` a `uint64_t` value)
`mod_add` computes `(a + b) % m`. -/
theorem mod_add_eq (a b m : Nat) (ha : a < m) (hb : b < m) (hm : m < W) :
    mod_add a b m = (a + b) % m := by
  unfold mod_add
  have hmb : (m + W - b) % W = m - b := by
    rw [Nat.mod_eq_sub_mod (by omega)]
    have h1 : m + W - b - W = m - b := by omega
    rw [h1, Nat.mod_eq_of_lt (by omega)]
  rw [hmb]
  by_cases hc : m - b ≤ a
  · rw [if_pos hc]
    have h2 : (a + W - (m - b)) % W = a - (m - b) := by
      rw [Nat.mod_eq_sub_mod (by omega)]
      have h3 : a + W - (m - b) - W = a - (m - b) := by omega
      rw [h3, Nat.mod_eq_of_lt (by omega)]
    rw [h2]
    have h4 : a - (m - b) = a + b - m := by omega
    have h5 : (a + b) % m = (a + b - m) % m := Nat.mod_eq_sub_mod (by omega)
    rw [h4, h5]
  · rw [if_neg hc]
    rw [Nat.mod_eq_of_lt (show a + b < W by omega)]

/-- Whenever `b ≤ a + m` (in particular whenever `b < m` or `b ≤ a`),
`mod_sub` computes `(a + m - b) % m`, the mathematical `(a - b) mod m`. -/
theorem mod_sub_eq (a b m : Nat) (ha : a < W) (hm1 : 1 ≤ m) (hm : m < W)
    (hba : b ≤ a + m) : mod_sub a b m = (a + m - b) % m := by
  unfold mod_sub
  by_cases hab : a < b
  · rw [if_pos hab]
    by_cases hw : a + m < W
    · rw [Nat.mod_eq_of_lt hw]
      have h2 : (a + m + W - b) % W = a + m - b := by
        rw [Nat.mod_eq_sub_mod (by omega)]
        have h3 : a + m + W - b - W = a + m - b := by omega
        rw [h3, Nat.mod_eq_of_lt (by omega)]
      rw [h2]
    · have h1 : (a + m) % W = a + m - W := by
        rw [Nat.mod_eq_sub_mod (by omega), Nat.mod_eq_of_lt (by omega)]
      rw [h1]
      have h2 : (a + m - W + W - b) % W = a + m - b := by
        have h3 : a + m - W + W - b = a + m - b := by omega
        rw [h3, Nat.mod_eq_of_lt (by omega)]
      rw [h2]
  · rw [if_neg hab]
    have h4 : a + m - b = (a - b) + m := by omega
    rw [h4, Nat.add_mod_right]

/-! ### Range lemmas -/

theorem mod_add_lt (a b m : Nat) (hm : 1 ≤ m) : mod_add a b m < m := by
  unfold mod_add
  exact Nat.mod_lt _ (by omega)

theorem mod_sub_lt (a b m : Nat) (hm : 1 ≤ m) : mod_sub a b m < m := by
  unfold mod_sub
  split <;> exact Nat.mod_lt _ (by omega)

theorem mod_mul_go_lt (k : Nat) :
    ∀ r a b m, r < m → mod_mul_go k r a b m < m := by
  induction k with
  | zero => intro r a b m hr; simpa [mod_mul_go] using hr
  | succ k ih =>
      intro r a b m hr
      simp only [mod_mul_go]
      split
      · exact hr
      · apply ih
        split
        · exact mod_add_lt _ _ _ (by omega)
        · exact hr

theorem mod_mul_lt (a b m : Nat) (hm : 1 ≤ m) : mod_mul a b m < m := by
  unfold mod_mul
  exact mod_mul_go_lt 64 0 (a % m) b m (by omega)

theorem mod_pow_go_lt (k : Nat) :
    ∀ r a b m, r < m → mod_pow_go k r a b m < m := by
  induction k with
  | zero => intro r a b m hr; simpa [mod_pow_go] using hr
  | succ k ih =>
      intro r a b m hr
      simp only [mod_pow_go]
      split
      · exact hr
      · apply ih
        split
        · exact mod_mul_lt _ _ _ (by omega)
        · exact hr

theorem mod_pow_lt (a b m : Nat) (hm : 2 ≤ m) : mod_pow a b m < m := by
  unfold mod_pow
  exact mod_pow_go_lt 64 1 (a % m) b m (by omega)

/-! ### Correctness of the double-addition and square-and-multiply loops -/

theorem mod_mul_go_zero (k r a m : Nat) : mod_mul_go k r a 0 m = r := by
  cases k <;> simp [mod_mul_go]

theorem mod_pow_go_zero (k r a m : Nat) : mod_pow_go k r a 0 m = r := by
  cases k <;> simp [mod_pow_go]

theorem mod_mul_go_eq (k : Nat) :
    ∀ r a b m, 1 ≤ m → m < W → r < m → a < m → b < 2 ^ k →
      mod_mul_go k r a b m = (r + a * b) % m := by
  induction k with
  | zero =>
      intro r a b m _ _ hr _ hb
      have hb0 : b = 0 := by omega
      subst hb0
      simp [mod_mul_go, Nat.mod_eq_of_lt hr]
  | succ k ih =>
      intro r a b m hm1 hm hr ha hb
      by_cases hb0 : b = 0
      · subst hb0
        simp [mod_mul_go, Nat.mod_eq_of_lt hr]
      · simp only [mod_mul_go]
        rw [if_neg hb0]
        have haa : mod_add a a m = (a + a) % m := mod_add_eq a a m ha ha hm
        have hbk : b / 2 < 2 ^ k := by
          have h2 : 2 ^ (k + 1) = 2 ^ k * 2 := by rw [pow_succ]
          omega
        have ha' : (a + a) % m < m := Nat.mod_lt _ (by omega)
        by_cases hodd : b % 2 = 1
        · rw [if_pos hodd, mod_add_eq r a m hr ha hm, haa]
          rw [ih ((r + a) % m) ((a + a) % m) (b / 2) m hm1 hm (Nat.mod_lt _ (by omega)) ha' hbk]
          have heq : (r + a) + (a + a) * (b / 2) = r + a * b := by
            have hb2 : 2 * (b / 2) + 1 = b := by omega
            calc (r + a) + (a + a) * (b / 2) = r + a * (2 * (b / 2) + 1) := by ring
              _ = r + a * b := by rw [hb2]
          calc ((r + a) % m + (a + a) % m * (b / 2)) % m
              = ((r + a) + (a + a) * (b / 2)) % m :=
                (Nat.mod_modEq _ _).add ((Nat.mod_modEq _ _).mul_right _)
            _ = (r + a * b) % m := by rw [heq]
        · rw [if_neg hodd, haa]
          rw [ih r ((a + a) % m) (b / 2) m hm1 hm hr ha' hbk]
          have heq : r + (a + a) * (b / 2) = r + a * b := by
            have hb2 : 2 * (b / 2) = b := by omega
            calc r + (a + a) * (b / 2) = r + a * (2 * (b / 2)) := by ring
              _ = r + a * b := by rw [hb2]
          calc (r + (a + a) % m * (b / 2)) % m
              = (r + (a + a) * (b / 2)) % m :=
                (Nat.ModEq.refl r).add ((Nat.mod_modEq _ _).mul_right _)
            _ = (r + a * b) % m := by rw [heq]

theorem mod_mul_eq (a b m : Nat) (hm1 : 1 ≤ m) (hm : m < W) (hb : b < W) :
    mod_mul a b m = a * b % m := by
  unfold mod_mul
  rw [mod_mul_go_eq 64 0 (a % m) b m hm1 hm (by omega) (Nat.mod_lt a (by omega)) hb]
  rw [Nat.zero_add]
  exact (Nat.mod_modEq a m).mul_right b

theorem mod_pow_go_eq (k : Nat) :
    ∀ r a b m, 1 ≤ m → m < W → a < m → 1 ≤ b → b < 2 ^ k →
      mod_pow_go k r a b m = (r * a ^ b) % m := by
  induction k with
  | zero =>
      intro r a b m _ _ _ hb1 hb
      simp only [pow_zero] at hb
      omega
  | succ k ih =>
      intro r a b m hm1 hm ha hb1 hb
      have hbne : b ≠ 0 := by omega
      simp only [mod_pow_go]
      rw [if_neg hbne]
      have hbk : b / 2 < 2 ^ k := by
        have h2 : 2 ^ (k + 1) = 2 ^ k * 2 := by rw [pow_succ]
        omega
      by_cases hb2 : b / 2 = 0
      · have hb1' : b = 1 := by omega
        subst hb1'
        norm_num
        rw [mod_pow_go_zero, mod_mul_eq r a m hm1 hm (by omega)]
      · have haa : mod_mul a a m = a * a % m := mod_mul_eq a a m hm1 hm (by omega)
        have ha' : a * a % m < m := Nat.mod_lt _ (by omega)
        rw [haa, ih _ (a * a % m) (b / 2) m hm1 hm ha' (by omega) hbk]
        have hpow : (a * a % m) ^ (b / 2) ≡ (a * a) ^ (b / 2) [MOD m] :=
          (Nat.mod_modEq _ _).pow _
        by_cases hodd : b % 2 = 1
        · rw [if_pos hodd, mod_mul_eq r a m hm1 hm (by omega)]
          have heq : (r * a) * (a * a) ^ (b / 2) = r * a ^ b := by
            have hq : 2 * (b / 2) + 1 = b := by omega
            calc (r * a) * (a * a) ^ (b / 2) = r * a ^ (2 * (b / 2) + 1) := by ring
              _ = r * a ^ b := by rw [hq]
          calc (r * a % m * (a * a % m) ^ (b / 2)) % m
              = ((r * a) * (a * a) ^ (b / 2)) % m := (Nat.mod_modEq _ _).mul hpow
            _ = (r * a ^ b) % m := by rw [heq]
        · rw [if_neg hodd]
          have heq : r * (a * a) ^ (b / 2) = r * a ^ b := by
            have hq : 2 * (b / 2) = b := by omega
            calc r * (a * a) ^ (b / 2) = r * a ^ (2 * (b / 2)) := by ring
              _ = r * a ^ b := by rw [hq]
          calc (r * (a * a % m) ^ (b / 2)) % m
              = (r * (a * a) ^ (b / 2)) % m := (Nat.ModEq.refl r).mul hpow
            _ = (r * a ^ b) % m := by rw [heq]

theorem mod_pow_eq (a b m : Nat) (hm1 : 1 ≤ m) (hm : m < W) (hb1 : 1 ≤ b) (hb : b < W) :
    mod_pow a b m = a ^ b % m := by
  unfold mod_pow
  rw [mod_pow_go_eq 64 1 (a % m) b m hm1 hm (Nat.mod_lt a (by omega)) hb1 hb, one_mul]
  exact (Nat.mod_modEq a m).pow b

theorem mod_pow_zero_exponent (a m : Nat) : mod_pow a 0 m = 1 := by
  unfold mod_pow
  exact mod_pow_go_zero 64 1 (a % m) m

/-! ### Structure of the base loop -/

/-- The base loop returns `1` exactly when no base in the prefix of `bs` whose
elements do not exceed `n - 2` witnesses compositeness; bases past the first
one exceeding `n - 2` are never examined. -/
theorem baseLoop_eq_takeWhile (bs : List Nat) (n d r : Nat) :
    baseLoop bs n d r =
      if (bs.takeWhile fun x => decide (x ≤ n - 2)).all (fun x => ! witnessed x n d r)
      then 1 else 0 := by
  induction bs with
  | nil => rfl
  | cons aI rest ih =>
      by_cases hskip : n - 2 < aI
      · have hpa : (decide (aI ≤ n - 2)) = false := by simpa using hskip
        simp [baseLoop, List.takeWhile_cons, hskip, hpa]
      · have hpa : (decide (aI ≤ n - 2)) = true := by simpa using hskip
        by_cases hw : witnessed aI n d r = true
        · simp [baseLoop, List.takeWhile_cons, hskip, hpa, hw]
        · have hw' : witnessed aI n d r = false := by
            revert hw; cases witnessed aI n d r <;> simp
          simp [baseLoop, List.takeWhile_cons, hskip, hpa, hw', ih]

theorem baseLoop_zero_or_one (bs : List Nat) (n d r : Nat) :
    baseLoop bs n d r = 0 ∨ baseLoop bs n d r = 1 := by
  induction bs with
  | nil => exact Or.inr rfl
  | cons aI rest ih =>
      simp only [baseLoop]
      split
      · exact Or.inr rfl
      · split
        · exact Or.inl rfl
        · exact ih

/-! ### Sanity checks against the test vectors of the specification -/

set_option maxRecDepth 40000

theorem miller_rabin_known_primes :
    miller_rabin 2 = 1 ∧ miller_rabin 3 = 1 ∧ miller_rabin 97 = 1 ∧ miller_rabin 7919 = 1 := by
  refine ⟨by decide, by decide, by decide, by decide⟩

theorem miller_rabin_known_composites :
    miller_rabin 0 = 0 ∧ miller_rabin 1 = 0 ∧ miller_rabin 4 = 0 ∧
      miller_rabin 9 = 0 ∧ miller_rabin 561 = 0 := by
  refine ⟨by decide, by decide, by decide, by decide, by decide⟩

/-! ### Claims -/

/-- Claim C2: for 64-bit `a, b, m` with `a < m` and `b < m`, `mod_add a b m`
equals `(a + b) % m`.  Moreover the computation never overflows 64-bit
arithmetic: the branch with `m - b ≤ a` returns `a - (m - b)` reduced mod `m`
(both subtractions exact), the other branch returns `a + b` reduced mod `m`,
and there the sum `a + b` stays below `2 ^ 64`. -/
theorem mod_add_spec (a b m : Nat) (ha : a < m) (hb : b < m) (hm : m < W) :
    mod_add a b m = (a + b) % m ∧
      (m - b ≤ a → mod_add a b m = (a - (m - b)) % m) ∧
      (a < m - b → mod_add a b m = (a + b) % m ∧ a + b < W) := by
  have hmain := mod_add_eq a b m ha hb hm
  refine ⟨hmain, ?_, ?_⟩
  · intro hc
    rw [hmain]
    have h1 : a - (m - b) = a + b - m := by omega
    have h2 : (a + b) % m = (a + b - m) % m := Nat.mod_eq_sub_mod (by omega)
    rw [h1]
    exact h2
  · intro hc
    exact ⟨hmain, by omega⟩

/-- Claim C2 witness, at `a = 5`, `b = 6`, `m = 7`. -/
theorem mod_add_spec_witness :
    (5 < 7 ∧ 6 < 7 ∧ 7 < W) ∧
      (mod_add 5 6 7 = (5 + 6) % 7 ∧
        (7 - 6 ≤ 5 → mod_add 5 6 7 = (5 - (7 - 6)) % 7) ∧
        (5 < 7 - 6 → mod_add 5 6 7 = (5 + 6) % 7 ∧ 5 + 6 < W)) :=
  ⟨⟨by decide, by decide, by decide⟩, mod_add_spec 5 6 7 (by decide) (by decide) (by decide)⟩

/-- Claim C3 counterexample: `mod_sub` is not correct for arbitrary `a, b`.
At `a = 0`, `b = 5`, `m = 3` the C code computes `(0 + 3 - 5)` in `uint64_t`,
which wraps to `2 ^ 64 - 2`, and returns `(2 ^ 64 - 2) % 3 = 2`, while the
mathematical `(0 - 5) mod 3` is `1`. -/
theorem mod_sub_wrap_cex : mod_sub 0 5 3 = 2 ∧ ((0 : Int) - 5) % 3 = 1 := by
  constructor
  · decide
  · decide

/-- Claim C3 (amended): for 64-bit `a` and `m ≥ 1`, whenever `b ≤ a + m`
(which covers every `b < m`, i.e. every `b` in the output range `[0, m)` of
the other operations, and every `b ≤ a`), `mod_sub a b m` equals the
mathematical `(a - b) mod m` and lies in `[0, m)`.  When `b > a + m` the
`uint64_t` expression `a + m - b` wraps and the result is wrong (see the
counterexample), so the claim's "no precondition relating them" fails. -/
theorem mod_sub_spec (a b m : Nat) (ha : a < W) (hm1 : 1 ≤ m) (hm : m < W)
    (hba : b ≤ a + m) :
    (mod_sub a b m : Int) = ((a : Int) - b) % m ∧ mod_sub a b m < m := by
  refine ⟨?_, mod_sub_lt a b m hm1⟩
  rw [mod_sub_eq a b m ha hm1 hm hba]
  rw [Int.ofNat_emod, Nat.cast_sub hba]
  push_cast
  have h : (a : Int) + m - b = (a - b) + m := by ring
  rw [h]
  simp

/-- Claim C3 witness (amended claim), at `a = 2`, `b = 9`, `m = 10`. -/
theorem mod_sub_spec_witness :
    (2 < W ∧ 1 ≤ 10 ∧ 10 < W ∧ 9 ≤ 2 + 10) ∧
      ((mod_sub 2 9 10 : Int) = ((2 : Int) - 9) % 10 ∧ mod_sub 2 9 10 < 10) :=
  ⟨⟨by decide, by decide, by decide, by decide⟩,
    mod_sub_spec 2 9 10 (by decide) (by decide) (by decide) (by decide)⟩

/-- Claim C4: for every 64-bit `b` and every 64-bit modulus `m ≥ 1`,
`mod_mul a b m` equals `(a * b) % m` (for arbitrary `a`; the function reduces
`a` first).  The binary double-and-add loop uses only `mod_add` on operands
already in `[0, m)`, so no intermediate 64-bit overflow occurs. -/
theorem mod_mul_spec (a b m : Nat) (hb : b < W) (hm1 : 1 ≤ m) (hm : m < W) :
    mod_mul a b m = a * b % m :=
  mod_mul_eq a b m hm1 hm hb

/-- Claim C4 witness, at `a = 123`, `b = 456`, `m = 789`. -/
theorem mod_mul_spec_witness :
    (456 < W ∧ 1 ≤ 789 ∧ 789 < W) ∧ mod_mul 123 456 789 = 123 * 456 % 789 :=
  ⟨⟨by decide, by decide, by decide⟩, mod_mul_spec 123 456 789 (by decide) (by decide) (by decide)⟩

/-- Claim C5 counterexample: at `m = 1`, `b = 0` the code returns the initial
accumulator `1` without reducing it, but `(a ^ 0) mod 1 = 0`, so
`mod_pow a b m = (a ^ b) mod m` does not hold for every `m ≥ 1`. -/
theorem mod_pow_zero_exp_cex : mod_pow 0 0 1 = 1 ∧ (0 : Nat) ^ 0 % 1 = 0 := by
  constructor
  · decide
  · decide

/-- Claim C5 (amended): for 64-bit `a, b` and `m ≥ 1`, except in the single
case `m = 1 ∧ b = 0`, `mod_pow a b m` equals `(a ^ b) % m` by
square-and-multiply; and for `b = 0` the function returns exactly `1`
(which equals `(a ^ 0) % m` only when `m ≥ 2`). -/
theorem mod_pow_spec (a b m : Nat) (hb : b < W) (hm1 : 1 ≤ m) (hm : m < W)
    (h : 2 ≤ m ∨ 1 ≤ b) :
    mod_pow a b m = a ^ b % m ∧ mod_pow a 0 m = 1 := by
  refine ⟨?_, mod_pow_zero_exponent a m⟩
  rcases Nat.eq_zero_or_pos b with hb0 | hb1
  · subst hb0
    have hm2 : 2 ≤ m := by
      rcases h with h | h
      · exact h
      · omega
    rw [mod_pow_zero_exponent, pow_zero, Nat.mod_eq_of_lt (by omega)]
  · exact mod_pow_eq a b m hm1 hm hb1 hb

/-- Claim C5 witness, at `a = 3`, `b = 5`, `m = 7`. -/
theorem mod_pow_spec_witness :
    (5 < W ∧ 1 ≤ 7 ∧ 7 < W ∧ (2 ≤ 7 ∨ 1 ≤ 5)) ∧
      (mod_pow 3 5 7 = 3 ^ 5 % 7 ∧ mod_pow 3 0 7 = 1) :=
  ⟨⟨by decide, by decide, by decide, Or.inl (by decide)⟩,
    mod_pow_spec 3 5 7 (by decide) (by decide) (by decide) (Or.inl (by decide))⟩

/-- Claim C6 counterexample: the range invariant fails for `mod_pow` at
`m = 1`, `b = 0`, whose result `1` is not in `[0, 1)`. -/
theorem mod_pow_range_cex : ¬ mod_pow 0 0 1 < 1 := by decide

/-- Claim C6 (amended): for every `m ≥ 1` (and 64-bit inputs) the outputs of
`mod_add`, `mod_sub` and `mod_mul` always lie in `[0, m)`, and the output of
`mod_pow` lies in `[0, m)` whenever `m ≥ 2` or `b ≥ 1`; in the single
excluded case `m = 1 ∧ b = 0`, `mod_pow` returns `1`. -/
theorem mod_range_spec (a b m : Nat) (hb : b < W) (hm : 1 ≤ m) (hmW : m < W) :
    mod_add a b m < m ∧ mod_sub a b m < m ∧ mod_mul a b m < m ∧
      (2 ≤ m ∨ 1 ≤ b → mod_pow a b m < m) := by
  refine ⟨mod_add_lt a b m hm, mod_sub_lt a b m hm, mod_mul_lt a b m hm, ?_⟩
  intro h
  by_cases hm2 : 2 ≤ m
  · exact mod_pow_lt a b m hm2
  · have hm1 : m = 1 := by omega
    subst hm1
    have hb1 : 1 ≤ b := by
      rcases h with h | h
      · omega
      · exact h
    rw [mod_pow_eq a b 1 (by omega) (by decide) hb1 hb, Nat.mod_one]
    decide

/-- Claim C6 witness, at `a = 3`, `b = 4`, `m = 5`. -/
theorem mod_range_spec_witness :
    (4 < W ∧ 1 ≤ 5 ∧ 5 < W) ∧
      (mod_add 3 4 5 < 5 ∧ mod_sub 3 4 5 < 5 ∧ mod_mul 3 4 5 < 5 ∧
        (2 ≤ 5 ∨ 1 ≤ 4 → mod_pow 3 4 5 < 5)) :=
  ⟨⟨by decide, by decide, by decide⟩,
    mod_range_spec 3 4 5 (by decide) (by decide) (by decide)⟩

/-- Claim C7: for every odd `n > 3`, `miller_rabin n` tests exactly the
prefix of the base sequence whose elements are `≤ n - 2` (the loop stops at
the first larger base), and the verdict is `1` (prime) precisely when none of
those tested bases witnesses compositeness — the skipped bases never cause
rejection. -/
theorem miller_rabin_skip_policy (n : Nat) (hodd : n % 2 = 1) (hn : 3 < n) :
    miller_rabin n =
      if (bases.takeWhile fun x => decide (x ≤ n - 2)).all
            (fun x => ! witnessed x n (split2_go 64 (n - 1) 0).1 (split2_go 64 (n - 1) 0).2)
      then 1 else 0 := by
  unfold miller_rabin
  rw [if_neg (by omega), if_neg (by omega), if_neg (by omega)]
  exact baseLoop_eq_takeWhile bases n _ _

/-- Claim C7 witness, at `n = 5` (which skips every base past `3`). -/
theorem miller_rabin_skip_policy_witness :
    (5 % 2 = 1 ∧ 3 < 5) ∧
      miller_rabin 5 =
        (if (bases.takeWhile fun x => decide (x ≤ 5 - 2)).all
              (fun x => ! witnessed x 5 (split2_go 64 (5 - 1) 0).1 (split2_go 64 (5 - 1) 0).2)
         then 1 else 0) :=
  ⟨⟨by decide, by decide⟩, miller_rabin_skip_policy 5 (by decide) (by decide)⟩

/-- Claim C8: subtracting `b` undoes adding `b` modulo `m`: for `a, b < m`
(64-bit), `mod_sub (mod_add a b m) b m = a`. -/
theorem mod_add_sub_inverse (a b m : Nat) (ha : a < m) (hb : b < m) (hm : m < W) :
    mod_sub (mod_add a b m) b m = a := by
  rw [mod_add_eq a b m ha hb hm]
  have hs : (a + b) % m < m := Nat.mod_lt _ (by omega)
  rw [mod_sub_eq ((a + b) % m) b m (by omega) (by omega) hm (by omega)]
  by_cases hc : a + b < m
  · rw [Nat.mod_eq_of_lt hc]
    have h1 : a + b + m - b = a + m := by omega
    rw [h1, Nat.add_mod_right, Nat.mod_eq_of_lt ha]
  · have h2 : (a + b) % m = a + b - m := by
      rw [Nat.mod_eq_sub_mod (by omega), Nat.mod_eq_of_lt (by omega)]
    rw [h2]
    have h3 : a + b - m + m - b = a := by omega
    rw [h3, Nat.mod_eq_of_lt ha]

/-- Claim C8 witness, at `a = 3`, `b = 4`, `m = 5`. -/
theorem mod_add_sub_inverse_witness :
    (3 < 5 ∧ 4 < 5 ∧ 5 < W) ∧ mod_sub (mod_add 3 4 5) 4 5 = 3 :=
  ⟨⟨by decide, by decide, by decide⟩, mod_add_sub_inverse 3 4 5 (by decide) (by decide) (by decide)⟩

/-- Claim C9: `miller_rabin` is total and returns a definite boolean verdict,
`0` or `1`, on every input: every loop of the program is bounded (the halving
loops by the 64-bit width of their counter, the base loop by the length of
the base list, the squaring loop by `r - 1`). -/
theorem miller_rabin_total (n : Nat) : miller_rabin n = 0 ∨ miller_rabin n = 1 := by
  unfold miller_rabin
  split
  · exact Or.inl rfl
  · split
    · exact Or.inr rfl
    · split
      · exact Or.inl rfl
      · exact baseLoop_zero_or_one bases n _ _

/-- Claim C10: `mod_mul` and `mod_pow` reduce their first operand modulo `m`
on entry, so pre-reducing it is a no-op: both return the same value on `a`
and on `a % m`. -/
theorem mod_reduce_first_arg (a b m : Nat) (_hm : 1 ≤ m) :
    mod_mul a b m = mod_mul (a % m) b m ∧ mod_pow a b m = mod_pow (a % m) b m := by
  unfold mod_mul mod_pow
  rw [Nat.mod_mod_of_dvd a (dvd_refl m)]
  exact ⟨rfl, rfl⟩

/-- Claim C10 witness, at `a = 12`, `b = 3`, `m = 5`. -/
theorem mod_reduce_first_arg_witness :
    1 ≤ 5 ∧ (mod_mul 12 3 5 = mod_mul (12 % 5) 3 5 ∧ mod_pow 12 3 5 = mod_pow (12 % 5) 3 5) :=
  ⟨by decide, mod_reduce_first_arg 12 3 5 (by decide)⟩
